import Mathlib

/-
Verification of the hexponent hexadecimal-float literal library.

The parser (`FloatLiteral::from_bytes`, src/lib.rs lines 183-288) is embedded
faithfully below, byte for byte against the Rust source.  Rust slices of the
input are modelled as a pointer (a natural address) together with the list of
remaining bytes, so that the pointer arithmetic of `get_cursed_index`
(src/lib.rs lines 167-170) is modelled as it is written.  The spots where the
Rust code can panic (`expect` on the UTF-8 conversion, `unwrap` during digit
trimming and nibble conversion) are modelled by `Option`: `none` is a panic.

The repository's `parse_utils` and `fpformat` modules are not among the source
files; the definitions for them are modelled from the spec and say so in
their doc comments.
-/

namespace Hexponent

/-- Kind of parsing error (src/lib.rs, `ParseErrorKind`, lines 100-125). -/
inductive ParseErrorKind where
  | MissingPrefix
  | MissingDigits
  | MissingExponent
  | ExponentOverflow
  | MissingEnd
deriving DecidableEq, Repr

/-- Error type for parsing hexadecimal literals (src/lib.rs, `ParseError`,
lines 87-94): a kind and an approximate byte index into the source data. -/
structure ParseError where
  kind : ParseErrorKind
  index : Nat
deriving DecidableEq, Repr

/-- Represents a floating point literal (src/lib.rs, `FloatLiteral`,
lines 159-165).  `digits` holds the values of the digits (nibbles), not
their ascii form. -/
structure FloatLiteral where
  is_positive : Bool
  digits : List Nat
  decimal_offset : Int
  exponent : Int
deriving DecidableEq, Repr

/-- Indicates the precision of a conversion (src/lib.rs, `ConversionResult`,
lines 57-67).  Here `T` is instantiated with `Nat`: the assembled bit
pattern of the floating-point result. -/
inductive ConversionResult (T : Type) where
  | Precise : T → ConversionResult T
  | Imprecise : T → ConversionResult T
deriving DecidableEq, Repr

/-- Convert the result to its contained type (src/lib.rs, lines 71-76). -/
def ConversionResult.inner {T : Type} : ConversionResult T → T
  | .Precise f => f
  | .Imprecise f => f

/-- A Rust byte slice: the address of its first byte and its bytes. -/
structure Slice where
  ptr : Nat
  bytes : List Nat
deriving DecidableEq, Repr

/-- Advancing a slice: `&data[n..]`. -/
def slice_drop (s : Slice) (n : Nat) : Slice := ⟨s.ptr + n, s.bytes.drop n⟩

/-- Get the byte index of the start of `sub` in `master` (src/lib.rs,
`get_cursed_index`, lines 168-170): pointer difference with saturating
subtraction, which is exactly truncated subtraction on `Nat`. -/
def get_cursed_index (master sub : Slice) : Nat := sub.ptr - master.ptr

/-- Whether a byte is an ascii hexadecimal digit `0-9a-fA-F`. -/
def is_hex_digit (b : Nat) : Bool :=
  decide ((48 ≤ b ∧ b ≤ 57) ∨ (97 ≤ b ∧ b ≤ 102) ∨ (65 ≤ b ∧ b ≤ 70))

/-- Whether a byte is an ascii decimal digit `0-9`. -/
def is_dec_digit (b : Nat) : Bool := decide (48 ≤ b ∧ b ≤ 57)

/-- Modelled from the spec: the repository's `parse_utils` module is not in
the source files.  The value of one ascii hexadecimal digit (a nibble,
0-15), `none` on any other byte. -/
def hex_digit_to_int (b : Nat) : Option Nat :=
  if 48 ≤ b ∧ b ≤ 57 then some (b - 48)
  else if 97 ≤ b ∧ b ≤ 102 then some (b - 97 + 10)
  else if 65 ≤ b ∧ b ≤ 70 then some (b - 65 + 10)
  else none

/-- Rust's `Iterator::position`: index of the first element satisfying `p`. -/
def position (p : Nat → Bool) : List Nat → Option Nat
  | [] => none
  | b :: rest => if p b then some 0 else (position p rest).map (· + 1)

/-- Rust's `Iterator::rposition` on a list: index (from the front) of the
last element satisfying `p`. -/
def rust_rposition (p : Nat → Bool) (l : List Nat) : Option Nat :=
  (position p l.reverse).map (fun k => l.length - 1 - k)

/-- The in-place nibble conversion loop of src/lib.rs lines 272-274: each
ascii digit is replaced by its value; the `unwrap` is a panic (`none`) when
a byte is not a hexadecimal digit. -/
def map_hex_values : List Nat → Option (List Nat)
  | [] => some []
  | d :: rest =>
    match hex_digit_to_int d, map_hex_values rest with
    | some v, some vs => some (v :: vs)
    | _, _ => none

/-- The numeric value of a run of ascii decimal digits. -/
def dec_digits_to_nat (ds : List Nat) : Nat := ds.foldl (fun a d => 10 * a + (d - 48)) 0

/-- Core of Rust's `i32::from_str` once the sign is consumed: at least one
byte, all bytes decimal digits, and the value within the signed 32-bit
range for the given sign. -/
def parse_i32_core (neg : Bool) (ds : List Nat) : Option Int :=
  if ds = [] then none
  else if ¬ ds.all (fun d => is_dec_digit d) then none
  else
    let v := dec_digits_to_nat ds
    if neg then (if v ≤ 2 ^ 31 then some (-(v : Int)) else none)
    else (if v ≤ 2 ^ 31 - 1 then some (v : Int) else none)

/-- Rust's `str::parse::<i32>` on ascii bytes: an optional sign and then
decimal digits, the value checked against the signed 32-bit range
(any failure is `none`, which src/lib.rs line 242 maps to
`ExponentOverflow`). -/
def parse_i32 (s : List Nat) : Option Int :=
  match s with
  | 43 :: ds => parse_i32_core false ds
  | 45 :: ds => parse_i32_core true ds
  | _ => parse_i32_core false s

/-- The standard UTF-8 acceptor automaton, one byte at a time.  The state is
the count of still-expected continuation bytes together with the allowed
range for the next byte (the first continuation byte after a lead has a
lead-dependent range, later ones are plain continuation bytes 128-191). -/
def utf8_fold : List Nat → Nat → Nat → Nat → Bool
  | [], 0, _, _ => true
  | [], _ + 1, _, _ => false
  | b :: rest, 0, _, _ =>
    if b ≤ 127 then utf8_fold rest 0 0 0
    else if 194 ≤ b ∧ b ≤ 223 then utf8_fold rest 1 128 191
    else if b = 224 then utf8_fold rest 2 160 191
    else if (225 ≤ b ∧ b ≤ 236) ∨ b = 238 ∨ b = 239 then utf8_fold rest 2 128 191
    else if b = 237 then utf8_fold rest 2 128 159
    else if b = 240 then utf8_fold rest 3 144 191
    else if 241 ≤ b ∧ b ≤ 243 then utf8_fold rest 3 128 191
    else if b = 244 then utf8_fold rest 3 128 143
    else false
  | b :: rest, k + 1, lo, hi =>
    if lo ≤ b ∧ b ≤ hi then utf8_fold rest k 128 191 else false

/-- UTF-8 validity of a byte list, following the standard table (what
`core::str::from_utf8` checks before src/lib.rs line 240 `expect`s its
result). -/
def utf8_valid (l : List Nat) : Bool := utf8_fold l 0 0 0

/-- Modelled from the spec: the repository's `parse_utils` module is not in
the source files.  Consumes the longest run of hexadecimal digit bytes from
the front of a slice, returning the run and the rest of the slice. -/
def consume_hex_digits (s : Slice) : List Nat × Slice :=
  let run := s.bytes.takeWhile is_hex_digit
  (run, ⟨s.ptr + run.length, s.bytes.dropWhile is_hex_digit⟩)

/-- The optional sign (src/lib.rs lines 186-190): `+` or `-` is consumed,
anything else leaves the slice alone; the flag is `is_positive`. -/
def parse_sign (s : Slice) : Bool × Slice :=
  match s.bytes with
  | 43 :: _ => (true, slice_drop s 1)
  | 45 :: _ => (false, slice_drop s 1)
  | _ => (true, s)

/-- The mandatory `0x` / `0X` marker (src/lib.rs lines 192-195): `none`
means the prefix is missing. -/
def parse_hex_marker (s : Slice) : Option Slice :=
  if s.bytes.take 2 = [48, 120] ∨ s.bytes.take 2 = [48, 88] then some (slice_drop s 2)
  else none

/-- The optional fractional part (src/lib.rs lines 199-204): a `.` followed
by a run of hexadecimal digits, or nothing. -/
def parse_fraction (s : Slice) : List Nat × Slice :=
  match s.bytes with
  | 46 :: _ => consume_hex_digits (slice_drop s 1)
  | _ => ([], s)

/-- The optional exponent (src/lib.rs lines 211-250): a `p`/`P` marker, an
optional sign, then decimal digits parsed as an `i32`.  The outer `none` is
the `expect` panic on the UTF-8 check; an inner `Except.error` is a parse
error (`MissingExponent` or `ExponentOverflow`).  Without a marker the
exponent defaults to 0. -/
def parse_exponent (original s : Slice) : Option (Except ParseError (Int × Slice)) :=
  match s.bytes with
  | b :: _ =>
    if b = 80 ∨ b = 112 then
      let s1 := slice_drop s 1
      let sign_offset : Nat :=
        match s1.bytes with
        | c :: _ => if c = 43 ∨ c = 45 then 1 else 0
        | [] => 0
      let exponent_digits_offset :=
        (position (fun b => ! is_dec_digit b) (s1.bytes.drop sign_offset)).getD
          (s1.bytes.drop sign_offset).length
      if exponent_digits_offset = 0 then
        some (.error ⟨.MissingExponent, get_cursed_index original s1⟩)
      else
        let expBytes := s1.bytes.take (sign_offset + exponent_digits_offset)
        if utf8_valid expBytes then
          match parse_i32 expBytes with
          | some e => some (.ok (e, slice_drop s1 (sign_offset + exponent_digits_offset)))
          | none => some (.error ⟨.ExponentOverflow, get_cursed_index original s1⟩)
        else none
    else some (.ok (0, s))
  | [] => some (.ok (0, s))

/-- The digit normalization of src/lib.rs lines 256-279: concatenate the
integer and fractional digit runs, find the first and last non-`'0'` bytes,
trim to that range and convert the kept ascii digits to nibble values.  If
every digit is `'0'` the result is empty digits with offset 0.  `none` is
a panic: the `unwrap` on `rposition` (line 263) or on the nibble conversion
(line 273). -/
def trim_digits (ipart fpart : List Nat) : Option (List Nat × Int) :=
  let raw := ipart ++ fpart
  match position (fun d => d != 48) raw with
  | some first_digit =>
    match rust_rposition (fun d => d != 48) raw with
    | some last_digit =>
      match map_hex_values ((raw.take (last_digit + 1)).drop first_digit) with
      | some ds => some (ds, (ipart.length : Int) - (first_digit : Int))
      | none => none
    | none => none
  | none => some ([], 0)

/-- The body of `FloatLiteral::from_bytes` after the sign is consumed
(src/lib.rs lines 192-287): marker, digit runs, exponent, trailing-byte
check and digit normalization.  `original` is the whole input slice (used
for the error indices), `data1` the slice after the optional sign. -/
def from_bytes_core (original : Slice) (is_positive : Bool) (data1 : Slice) :
    Option (Except ParseError FloatLiteral) :=
  match parse_hex_marker data1 with
  | none => some (.error ⟨.MissingPrefix, 0⟩)
  | some afterMarker =>
    let ir := consume_hex_digits afterMarker
    let ipart := ir.1
    let fr := parse_fraction ir.2
    let fpart := fr.1
    let data := fr.2
    if fpart = [] ∧ ipart = [] then
      some (.error ⟨.MissingDigits, get_cursed_index original data⟩)
    else
      match parse_exponent original data with
      | none => none
      | some (.error e) => some (.error e)
      | some (.ok (exponent, data)) =>
        if data.bytes = [] then
          match trim_digits ipart fpart with
          | none => none
          | some (digits, decimal_offset) =>
            some (.ok ⟨is_positive, digits, decimal_offset, exponent⟩)
        else
          some (.error ⟨.MissingEnd, get_cursed_index original data⟩)

/-- Parse a slice of bytes into a `FloatLiteral` (src/lib.rs,
`FloatLiteral::from_bytes`, lines 183-288), with the input buffer allocated
at address `base`: the optional sign, then `from_bytes_core`.  `none`
models a panic; `some` is the function's `Result`. -/
def from_bytes_at (base : Nat) (data0 : List Nat) : Option (Except ParseError FloatLiteral) :=
  let original : Slice := ⟨base, data0⟩
  let sr := parse_sign original
  from_bytes_core original sr.1 sr.2

/-- Parse a slice of bytes into a `FloatLiteral`: `from_bytes_at` with the
buffer at address 0 (the parse result does not depend on the address, which
is proved below). -/
def from_bytes (data : List Nat) : Option (Except ParseError FloatLiteral) :=
  from_bytes_at 0 data

/-- The `FromStr` implementation (src/lib.rs lines 290-295):
`FloatLiteral::from_bytes(s.as_bytes())`. -/
def from_str (s : String) : Option (Except ParseError FloatLiteral) :=
  from_bytes (s.toUTF8.toList.map (fun b => b.toNat))

/-- Modelled from the spec: the repository's `fpformat` module is not in the
source files.  A target format descriptor (spec section 4.2): exponent bit
width `E` and mantissa bit width `M`. -/
structure FPFormat where
  exponent_bits : Nat
  mantissa_bits : Nat
deriving DecidableEq, Repr

/-- The IEEE-754 single-precision format: 8 exponent bits, 23 mantissa bits. -/
def f32_format : FPFormat := ⟨8, 23⟩

/-- The IEEE-754 double-precision format: 11 exponent bits, 52 mantissa bits. -/
def f64_format : FPFormat := ⟨11, 52⟩

/-- Total width of the format (sign, exponent and mantissa bits); also the
width of the packing accumulator of spec section 4.2 step 3. -/
def FPFormat.total_bits (fmt : FPFormat) : Nat := 1 + fmt.exponent_bits + fmt.mantissa_bits

/-- Exponent bias of the format (spec section 4.2). -/
def FPFormat.bias (fmt : FPFormat) : Int := 2 ^ (fmt.exponent_bits - 1) - 1

/-- Maximum normalized exponent of the format. -/
def FPFormat.max_exponent (fmt : FPFormat) : Int := fmt.bias

/-- Minimum normalized exponent of the format. -/
def FPFormat.min_exponent (fmt : FPFormat) : Int := 1 - fmt.bias

/-- How many whole nibbles the packing accumulator holds. -/
def FPFormat.nibble_cap (fmt : FPFormat) : Nat := fmt.total_bits / 4

/-- The natural number whose base-16 digits are the given nibbles (most
significant first). -/
def nibbles_to_nat (ds : List Nat) : Nat := ds.foldl (fun a d => 16 * a + d) 0

/-- The sign bit of a literal: 0 for positive, 1 for negative. -/
def FloatLiteral.sign_bit (lit : FloatLiteral) : Nat := if lit.is_positive then 0 else 1

/-- Bit pattern of a (positive or negative) zero in the given format. -/
def zero_bits (fmt : FPFormat) (lit : FloatLiteral) : Nat :=
  lit.sign_bit * 2 ^ (fmt.exponent_bits + fmt.mantissa_bits)

/-- Bit pattern of a (positive or negative) infinity in the given format:
sign bit, all-ones exponent field, zero mantissa. -/
def inf_bits (fmt : FPFormat) (lit : FloatLiteral) : Nat :=
  zero_bits fmt lit + (2 ^ fmt.exponent_bits - 1) * 2 ^ fmt.mantissa_bits

/-- Modelled from the spec (section 4.2 step 3): the nibbles packed into the
accumulator, most significant first, until the accumulator is full or the
digits are exhausted. -/
def packed_digits (fmt : FPFormat) (lit : FloatLiteral) : List Nat :=
  lit.digits.take fmt.nibble_cap

/-- Modelled from the spec (section 4.2 step 3): the accumulator contents,
the packed nibbles aligned at the most significant end of the accumulator. -/
def accumulator (fmt : FPFormat) (lit : FloatLiteral) : Nat :=
  nibbles_to_nat (packed_digits fmt lit) *
    2 ^ (fmt.total_bits - 4 * (packed_digits fmt lit).length)

/-- Fuel-driven helper for `bit_length`. -/
def bit_length_aux : Nat → Nat → Nat
  | 0, _ => 0
  | fuel + 1, n => if n = 0 then 0 else bit_length_aux fuel (n / 2) + 1

/-- The bit length of a natural number: 0 for 0, and otherwise the position
of the highest set bit plus one. -/
def bit_length (n : Nat) : Nat := bit_length_aux n n

/-- Modelled from the spec (section 4.2 step 4): the count of leading zero
bits of the accumulator. -/
def leading_zeros (fmt : FPFormat) (lit : FloatLiteral) : Nat :=
  fmt.total_bits - bit_length (accumulator fmt lit)

/-- Modelled from the spec (section 4.2 steps 2 and 4): the power-of-two
scale of the packed digits, `decimal_offset * 4` adjusted by the
normalization shift `leading_zeros + 1`. -/
def exponent_offset (fmt : FPFormat) (lit : FloatLiteral) : Int :=
  4 * lit.decimal_offset - ((leading_zeros fmt lit : Int) + 1)

/-- Modelled from the spec (section 4.2 step 5): the unbiased exponent of
the converted value, `exponent_offset` plus the literal's own exponent. -/
def final_exponent (fmt : FPFormat) (lit : FloatLiteral) : Int :=
  exponent_offset fmt lit + lit.exponent

/-- Modelled from the spec (section 4.2 step 4): the mantissa field, the
accumulator shifted so the implicit leading 1 drops out, truncated to the
format's mantissa width. -/
def mantissa_field (fmt : FPFormat) (lit : FloatLiteral) : Nat :=
  ((accumulator fmt lit * 2 ^ (leading_zeros fmt lit + 1)) % 2 ^ fmt.total_bits) /
    2 ^ (fmt.total_bits - fmt.mantissa_bits)

/-- Modelled from the spec: the repository's `fpformat` module (the
`FPFormat` trait with its provided `from_literal`) is not in the source
files; this follows the conversion algorithm of spec section 4.2.  Empty
digits give a precise signed zero; underflow below the minimum normalized
exponent gives an imprecise signed zero; overflow above the maximum
exponent gives an imprecise signed infinity; otherwise the sign, the
biased exponent and the mantissa field are assembled into the bit layout,
imprecise exactly when step 3 dropped digits. -/
def from_literal (fmt : FPFormat) (lit : FloatLiteral) : ConversionResult Nat :=
  if lit.digits = [] then .Precise (zero_bits fmt lit)
  else if final_exponent fmt lit < fmt.min_exponent then .Imprecise (zero_bits fmt lit)
  else if fmt.max_exponent < final_exponent fmt lit then .Imprecise (inf_bits fmt lit)
  else
    let bits := zero_bits fmt lit +
      (final_exponent fmt lit + fmt.bias).toNat * 2 ^ fmt.mantissa_bits +
      mantissa_field fmt lit
    if fmt.nibble_cap < lit.digits.length then .Imprecise bits else .Precise bits

/-- Convert a literal to a floating-point format (src/lib.rs,
`FloatLiteral::convert`, lines 175-177): delegates to `from_literal`. -/
def FloatLiteral.convert (fmt : FPFormat) (lit : FloatLiteral) : ConversionResult Nat :=
  from_literal fmt lit

/-- The `From<FloatLiteral> for f32` implementation (src/lib.rs lines
297-301): `literal.convert().inner()`. -/
def f32_of_literal (lit : FloatLiteral) : Nat :=
  (FloatLiteral.convert f32_format lit).inner

/-- The `From<FloatLiteral> for f64` implementation (src/lib.rs lines
303-307): `literal.convert().inner()`. -/
def f64_of_literal (lit : FloatLiteral) : Nat :=
  (FloatLiteral.convert f64_format lit).inner

/-- The exact mathematical value of a structural literal: the packed digit
sequence read as a base-16 number, scaled so the first digit has weight
`16 ^ (decimal_offset - 1)`, times `2 ^ exponent`, with the sign applied. -/
def lit_value (lit : FloatLiteral) : ℚ :=
  (if lit.is_positive then 1 else -1) * (nibbles_to_nat lit.digits : ℚ) *
    (2 : ℚ) ^ (4 * (lit.decimal_offset - lit.digits.length) + lit.exponent)

/-- The mathematical value of a bit pattern in a format, by the IEEE-754
convention: zero when the stored exponent field is zero (subnormals are
never produced by the conversion), otherwise a normalized value with the
implicit leading 1. -/
def bits_value (fmt : FPFormat) (bits : Nat) : ℚ :=
  let mant : Nat := bits % 2 ^ fmt.mantissa_bits
  let be : Nat := (bits / 2 ^ fmt.mantissa_bits) % 2 ^ fmt.exponent_bits
  let sgn : ℚ :=
    if (bits / 2 ^ (fmt.exponent_bits + fmt.mantissa_bits)) % 2 = 1 then -1 else 1
  if be = 0 then 0
  else sgn * (2 : ℚ) ^ ((be : Int) - fmt.bias) * (1 + (mant : ℚ) / 2 ^ fmt.mantissa_bits)

deriving instance DecidableEq for Except

/-! Helper lemmas. -/

theorem bit_length_aux_le_iff (fuel n k : Nat) (h : n ≤ fuel) :
    bit_length_aux fuel n ≤ k ↔ n < 2 ^ k := by
  induction fuel generalizing n k with
  | zero =>
    have : n = 0 := Nat.le_zero.mp h
    subst this
    have hz : bit_length_aux 0 0 = 0 := rfl
    rw [hz]
    simp only [Nat.zero_le, true_iff]
    exact Nat.two_pow_pos k
  | succ fuel ih =>
    by_cases hn : n = 0
    · subst hn
      have hz : bit_length_aux (fuel + 1) 0 = 0 := rfl
      rw [hz]
      simp only [Nat.zero_le, true_iff]
      exact Nat.two_pow_pos k
    · rw [bit_length_aux, if_neg hn]
      cases k with
      | zero =>
        simp only [Nat.pow_zero, Nat.lt_one_iff]
        omega
      | succ j =>
        have hdiv : n / 2 ≤ fuel := by omega
        rw [Nat.add_le_add_iff_right, ih (n / 2) j hdiv, pow_succ,
          Nat.div_lt_iff_lt_mul (by norm_num)]

theorem bit_length_le_iff (n k : Nat) : bit_length n ≤ k ↔ n < 2 ^ k :=
  bit_length_aux_le_iff n n k le_rfl

theorem lt_bit_length_iff (n k : Nat) : k < bit_length n ↔ 2 ^ k ≤ n := by
  rw [← Nat.not_le, bit_length_le_iff, Nat.not_lt]

theorem zero_bits_value (fmt : FPFormat) (lit : FloatLiteral) :
    bits_value fmt (zero_bits fmt lit) = 0 := by
  have h : (zero_bits fmt lit / 2 ^ fmt.mantissa_bits) % 2 ^ fmt.exponent_bits = 0 := by
    have : zero_bits fmt lit = (lit.sign_bit * 2 ^ fmt.exponent_bits) * 2 ^ fmt.mantissa_bits := by
      simp [zero_bits, pow_add, mul_assoc]
    rw [this, Nat.mul_div_cancel _ (Nat.pos_pow_of_pos _ (by norm_num)),
      Nat.mul_mod_left]
  simp [bits_value, h]

theorem min_le_max_exponent (fmt : FPFormat) (h : 2 ≤ fmt.exponent_bits) :
    fmt.min_exponent ≤ fmt.max_exponent := by
  have h1 : (1 : Nat) ≤ fmt.exponent_bits - 1 := by omega
  have h2 : (2 : Int) ^ (1 : Nat) ≤ 2 ^ (fmt.exponent_bits - 1) :=
    pow_le_pow_right₀ (by norm_num) h1
  simp only [FPFormat.min_exponent, FPFormat.max_exponent, FPFormat.bias]
  omega

theorem convert_overflow (fmt : FPFormat) (lit : FloatLiteral)
    (hE : 2 ≤ fmt.exponent_bits) (hne : lit.digits ≠ [])
    (hover : fmt.max_exponent < final_exponent fmt lit) :
    FloatLiteral.convert fmt lit = .Imprecise (inf_bits fmt lit) := by
  have hmin : ¬ final_exponent fmt lit < fmt.min_exponent := by
    have := min_le_max_exponent fmt hE
    omega
  simp [FloatLiteral.convert, from_literal, hne, hmin, hover]

theorem convert_underflow (fmt : FPFormat) (lit : FloatLiteral)
    (hne : lit.digits ≠ [])
    (hunder : final_exponent fmt lit < fmt.min_exponent) :
    FloatLiteral.convert fmt lit = .Imprecise (zero_bits fmt lit) := by
  simp [FloatLiteral.convert, from_literal, hne, hunder]

theorem position_eq_none_iff (p : Nat → Bool) (l : List Nat) :
    position p l = none ↔ ∀ x ∈ l, p x = false := by
  induction l with
  | nil => simp [position]
  | cons b rest ih =>
    cases hb : p b with
    | true => simp [position, hb]
    | false => simp [position, hb, ih, List.forall_mem_cons]

theorem position_take_false (p : Nat → Bool) (l : List Nat) (k : Nat)
    (h : position p l = some k) : ∀ x ∈ l.take k, p x = false := by
  induction l generalizing k with
  | nil => simp [position] at h
  | cons b rest ih =>
    cases hb : p b with
    | true =>
      simp only [position, hb, if_true, Option.some.injEq] at h
      subst h
      simp
    | false =>
      simp only [position, hb, Bool.false_eq_true, if_false,
        Option.map_eq_some'] at h
      obtain ⟨j, hj, hk⟩ := h
      subst hk
      intro x hx
      rw [List.take_succ_cons] at hx
      rcases List.mem_cons.mp hx with rfl | hx
      · exact hb
      · exact ih j hj x hx

theorem position_getD_take (q : Nat → Bool) (t : List Nat) :
    ∀ x ∈ t.take ((position q t).getD t.length), q x = false := by
  cases h : position q t with
  | none =>
    simp only [Option.getD_none, List.take_length]
    exact (position_eq_none_iff q t).mp h
  | some k =>
    simp only [Option.getD_some]
    exact position_take_false q t k h

theorem takeWhile_append_run (p : Nat → Bool) (run rest : List Nat)
    (hrun : ∀ x ∈ run, p x = true)
    (hrest : ∀ b t, rest = b :: t → p b = false) :
    (run ++ rest).takeWhile p = run ∧ (run ++ rest).dropWhile p = rest := by
  induction run with
  | nil =>
    cases rest with
    | nil => simp
    | cons b t =>
      have hb := hrest b t rfl
      simp [List.takeWhile_cons, List.dropWhile_cons, hb]
  | cons a run' ih =>
    have ha := hrun a (List.mem_cons_self a run')
    have hih := ih (fun x hx => hrun x (List.mem_cons_of_mem a hx))
    simp [List.takeWhile_cons, List.dropWhile_cons, ha, hih.1, hih.2]

theorem utf8_fold_of_ascii (l : List Nat) (h : ∀ x ∈ l, x ≤ 127) :
    utf8_fold l 0 0 0 = true := by
  induction l with
  | nil => rfl
  | cons b rest ih =>
    have hb : b ≤ 127 := h b (List.mem_cons_self b rest)
    rw [utf8_fold, if_pos hb]
    exact ih (fun x hx => h x (List.mem_cons_of_mem b hx))

theorem utf8_valid_of_ascii (l : List Nat) (h : ∀ x ∈ l, x ≤ 127) :
    utf8_valid l = true := utf8_fold_of_ascii l h

theorem hex_digit_to_int_isSome (b : Nat) (h : is_hex_digit b = true) :
    ∃ v, hex_digit_to_int b = some v := by
  simp only [is_hex_digit, decide_eq_true_eq] at h
  unfold hex_digit_to_int
  split_ifs <;> first | exact ⟨_, rfl⟩ | omega

theorem map_hex_values_isSome (l : List Nat) (h : ∀ x ∈ l, is_hex_digit x = true) :
    ∃ vs, map_hex_values l = some vs := by
  induction l with
  | nil => exact ⟨[], rfl⟩
  | cons d rest ih =>
    obtain ⟨v, hv⟩ := hex_digit_to_int_isSome d (h d (List.mem_cons_self d rest))
    obtain ⟨vs, hvs⟩ := ih (fun x hx => h x (List.mem_cons_of_mem d hx))
    exact ⟨v :: vs, by simp [map_hex_values, hv, hvs]⟩

theorem trim_digits_isSome (ipart fpart : List Nat)
    (hi : ∀ x ∈ ipart, is_hex_digit x = true)
    (hf : ∀ x ∈ fpart, is_hex_digit x = true) :
    ∃ r, trim_digits ipart fpart = some r := by
  cases hpos : position (fun d => d != 48) (ipart ++ fpart) with
  | none =>
    refine ⟨([], 0), ?_⟩
    simp only [trim_digits]
    rw [hpos]
  | some fd =>
    have hraw : ∀ x ∈ ipart ++ fpart, is_hex_digit x = true := by
      intro x hx
      rcases List.mem_append.mp hx with hx | hx
      · exact hi x hx
      · exact hf x hx
    have hrev : rust_rposition (fun d => d != 48) (ipart ++ fpart) ≠ none := by
      unfold rust_rposition
      simp only [ne_eq, Option.map_eq_none']
      rw [position_eq_none_iff]
      intro hall
      have hall' : ∀ x ∈ ipart ++ fpart, (x != 48) = false := by
        intro x hx
        exact hall x (List.mem_reverse.mpr hx)
      rw [← position_eq_none_iff] at hall'
      rw [hall'] at hpos
      cases hpos
    cases hrp : rust_rposition (fun d => d != 48) (ipart ++ fpart) with
    | none => exact absurd hrp hrev
    | some ld =>
      have hkept : ∀ x ∈ ((ipart ++ fpart).take (ld + 1)).drop fd, is_hex_digit x = true :=
        fun x hx => hraw x (List.take_subset _ _ (List.drop_subset _ _ hx))
      obtain ⟨vs, hvs⟩ := map_hex_values_isSome _ hkept
      refine ⟨(vs, (ipart.length : Int) - (fd : Int)), ?_⟩
      simp only [trim_digits]
      rw [hpos, hrp]
      dsimp only
      rw [hvs]

theorem consume_hex_digits_all (s : Slice) :
    ∀ x ∈ (consume_hex_digits s).1, is_hex_digit x = true := by
  intro x hx
  exact List.mem_takeWhile_imp hx

theorem parse_fraction_all (s : Slice) :
    ∀ x ∈ (parse_fraction s).1, is_hex_digit x = true := by
  unfold parse_fraction
  cases hb : s.bytes with
  | nil => simp
  | cons b rest =>
    by_cases h46 : b = 46
    · subst h46
      exact consume_hex_digits_all _
    · intro x hx
      match b, h46, hx with
      | 46, h46, _ => exact absurd rfl h46
      | b + 47, _, hx => cases hx
      | 0, _, hx => cases hx

theorem sign_offset_ascii (l : List Nat) (so off : Nat)
    (hso : so = (match l with
      | c :: _ => if c = 43 ∨ c = 45 then 1 else 0
      | [] => 0))
    (hoff : off = (position (fun b => ! is_dec_digit b) (l.drop so)).getD
      (l.drop so).length) :
    ∀ x ∈ l.take (so + off), x ≤ 127 := by
  intro x hx
  rw [List.take_add] at hx
  rcases List.mem_append.mp hx with hx | hx
  · cases hl : l with
    | nil =>
      rw [hl] at hx
      simp at hx
    | cons c rest1 =>
      rw [hl] at hso
      dsimp only at hso
      by_cases hc : c = 43 ∨ c = 45
      · rw [if_pos hc] at hso
        subst hso
        rw [hl] at hx
        simp only [List.take_succ_cons, List.take_zero] at hx
        rcases List.mem_singleton.mp hx with rfl
        omega
      · rw [if_neg hc] at hso
        subst hso
        simp at hx
  · rw [hoff] at hx
    have := position_getD_take (fun b => ! is_dec_digit b) (l.drop so) x hx
    simp only [Bool.not_eq_false', is_dec_digit, decide_eq_true_eq] at this
    omega

theorem parse_exponent_isSome (original s : Slice) :
    (parse_exponent original s).isSome = true := by
  unfold parse_exponent
  cases hb : s.bytes with
  | nil => rfl
  | cons b rest =>
    dsimp only
    split
    · split
      · rfl
      · rw [utf8_valid_of_ascii _ (sign_offset_ascii _ _ _ rfl rfl), if_pos rfl]
        split <;> rfl
    · rfl

theorem from_bytes_at_isSome (base : Nat) (data0 : List Nat) :
    (from_bytes_at base data0).isSome = true := by
  simp only [from_bytes_at, from_bytes_core]
  split
  · rfl
  next am hm =>
    split
    · rfl
    next hdig =>
      split
      next hpe =>
        have h2 := parse_exponent_isSome ⟨base, data0⟩
          (parse_fraction (consume_hex_digits am).2).2
        rw [hpe] at h2
        cases h2
      next e hpe => rfl
      next exp dat hpe =>
        split
        next hempty =>
          split
          next htr =>
            obtain ⟨r, hr⟩ := trim_digits_isSome (consume_hex_digits am).1
              (parse_fraction (consume_hex_digits am).2).1
              (consume_hex_digits_all am)
              (parse_fraction_all (consume_hex_digits am).2)
            rw [hr] at htr
            cases htr
          next ds off htr => rfl
        next hempty => rfl

theorem nibbles_foldl (a : Nat) (l : List Nat) :
    l.foldl (fun a d => 16 * a + d) a =
      a * 16 ^ l.length + l.foldl (fun a d => 16 * a + d) 0 := by
  induction l generalizing a with
  | nil => simp
  | cons d ds ih =>
    simp only [List.foldl_cons, List.length_cons, Nat.mul_zero, Nat.zero_add]
    rw [ih (16 * a + d), ih d]
    ring

theorem nibbles_to_nat_cons (d : Nat) (ds : List Nat) :
    nibbles_to_nat (d :: ds) = d * 16 ^ ds.length + nibbles_to_nat ds := by
  show (d :: ds).foldl (fun a d => 16 * a + d) 0 = _
  simp only [List.foldl_cons]
  rw [nibbles_foldl (16 * 0 + d) ds]
  simp [nibbles_to_nat]

theorem get_cursed_index_shift (b p0 p : Nat) (l0 l : List Nat) :
    get_cursed_index ⟨b + p0, l0⟩ ⟨b + p, l⟩ = get_cursed_index ⟨p0, l0⟩ ⟨p, l⟩ := by
  simp [get_cursed_index, Nat.add_sub_add_left]

theorem parse_sign_shift (b p : Nat) (l : List Nat) :
    parse_sign ⟨b + p, l⟩ = ((parse_sign ⟨p, l⟩).1,
      ⟨b + (parse_sign ⟨p, l⟩).2.ptr, (parse_sign ⟨p, l⟩).2.bytes⟩) := by
  unfold parse_sign
  dsimp only
  split <;> simp [slice_drop, Nat.add_assoc]

theorem parse_hex_marker_shift (b p : Nat) (l : List Nat) :
    parse_hex_marker ⟨b + p, l⟩ = (parse_hex_marker ⟨p, l⟩).map
      (fun s => ⟨b + s.ptr, s.bytes⟩) := by
  unfold parse_hex_marker
  dsimp only
  split_ifs <;> simp [slice_drop, Nat.add_assoc]

theorem consume_hex_digits_shift (b p : Nat) (l : List Nat) :
    consume_hex_digits ⟨b + p, l⟩ = ((consume_hex_digits ⟨p, l⟩).1,
      ⟨b + (consume_hex_digits ⟨p, l⟩).2.ptr, (consume_hex_digits ⟨p, l⟩).2.bytes⟩) := by
  simp [consume_hex_digits, Nat.add_assoc]

theorem parse_fraction_shift (b p : Nat) (l : List Nat) :
    parse_fraction ⟨b + p, l⟩ = ((parse_fraction ⟨p, l⟩).1,
      ⟨b + (parse_fraction ⟨p, l⟩).2.ptr, (parse_fraction ⟨p, l⟩).2.bytes⟩) := by
  unfold parse_fraction
  dsimp only
  split
  · rename_i t
    have h1 : slice_drop (⟨b + p, 46 :: t⟩ : Slice) 1 = (⟨b + (p + 1), t⟩ : Slice) := by
      simp [slice_drop, Nat.add_assoc]
    have h2 : slice_drop (⟨p, 46 :: t⟩ : Slice) 1 = (⟨p + 1, t⟩ : Slice) := by
      simp [slice_drop]
    rw [h1, h2, consume_hex_digits_shift b (p + 1) t]
  · rfl

theorem parse_exponent_shift (b p0 p : Nat) (l0 l : List Nat) :
    parse_exponent ⟨b + p0, l0⟩ ⟨b + p, l⟩ =
      (parse_exponent ⟨p0, l0⟩ ⟨p, l⟩).map
        (fun r => r.map (fun er => (er.1, ⟨b + er.2.ptr, er.2.bytes⟩))) := by
  unfold parse_exponent
  dsimp only
  split
  · rename_i c t
    by_cases hpm : c = 80 ∨ c = 112
    · rw [if_pos hpm, if_pos hpm]
      simp only [slice_drop, List.drop_one, List.tail_cons]
      set so : Nat := (match t with
        | c :: _ => if c = 43 ∨ c = 45 then 1 else 0
        | [] => 0) with hso
      set off : Nat :=
        (position (fun b => ! is_dec_digit b) (t.drop so)).getD (t.drop so).length
        with hoff
      by_cases hz : off = 0
      · rw [if_pos hz, if_pos hz]
        simp only [Option.map_some', Except.map, get_cursed_index,
          Option.some.injEq, Except.error.injEq, ParseError.mk.injEq, true_and]
        omega
      · rw [if_neg hz, if_neg hz]
        by_cases hu : utf8_valid (t.take (so + off)) = true
        · rw [if_pos hu, if_pos hu]
          cases hpi : parse_i32 (t.take (so + off)) with
          | some e =>
            simp only [Option.map_some', Except.map, slice_drop,
              Option.some.injEq, Except.ok.injEq, Prod.mk.injEq, Slice.mk.injEq,
              true_and, and_true]
            omega
          | none =>
            simp only [Option.map_some', Except.map, get_cursed_index,
              Option.some.injEq, Except.error.injEq, ParseError.mk.injEq, true_and]
            omega
        · rw [if_neg hu, if_neg hu]
          rfl
    · rw [if_neg hpm, if_neg hpm]
      simp [Except.map]
  · simp [Except.map]

theorem from_bytes_at_shift (b base : Nat) (data0 : List Nat) :
    from_bytes_at (b + base) data0 = from_bytes_at base data0 := by
  simp only [from_bytes_at, from_bytes_core]
  rcases hs : parse_sign ⟨base, data0⟩ with ⟨pos, p1, l1⟩
  rw [parse_sign_shift b base data0, hs]
  dsimp only
  rcases hm : parse_hex_marker ⟨p1, l1⟩ with _ | ⟨p2, l2⟩ <;>
    rw [parse_hex_marker_shift b p1 l1, hm]
  · rfl
  · dsimp only [Option.map_some']
    rcases hc : consume_hex_digits ⟨p2, l2⟩ with ⟨ipart, p3, l3⟩
    rw [consume_hex_digits_shift b p2 l2, hc]
    dsimp only
    rcases hf : parse_fraction ⟨p3, l3⟩ with ⟨fpart, p4, l4⟩
    rw [parse_fraction_shift b p3 l3, hf]
    dsimp only
    by_cases hd : fpart = [] ∧ ipart = []
    · rw [if_pos hd, if_pos hd, get_cursed_index_shift]
    · rw [if_neg hd, if_neg hd]
      rcases hpe : parse_exponent ⟨base, data0⟩ ⟨p4, l4⟩ with _ | e | ⟨exp, p5, l5⟩ <;>
        rw [parse_exponent_shift b base p4 data0 l4, hpe]
      · rfl
      · rfl
      · dsimp only [Option.map_some', Except.map]
        by_cases hb5 : l5 = []
        · subst hb5
          rw [if_pos rfl, if_pos rfl]
        · rw [if_neg hb5, if_neg hb5, get_cursed_index_shift]

/-! Arithmetic facts about the packed digit value and the assembled bit
pattern, used for the exactness claim. -/

theorem nibbles_to_nat_lt (ds : List Nat) (h : ∀ d ∈ ds, d < 16) :
    nibbles_to_nat ds < 16 ^ ds.length := by
  induction ds with
  | nil => simp [nibbles_to_nat]
  | cons d rest ih =>
    rw [nibbles_to_nat_cons]
    have hd : d < 16 := h d (List.mem_cons_self d rest)
    have hrest := ih (fun x hx => h x (List.mem_cons_of_mem d hx))
    have h1 : d * 16 ^ rest.length ≤ 15 * 16 ^ rest.length :=
      Nat.mul_le_mul_right _ (by omega)
    have h2 : 16 ^ (d :: rest).length = 16 * 16 ^ rest.length := by
      rw [List.length_cons, pow_succ]
      ring
    omega

theorem nibbles_to_nat_ge (d : Nat) (ds : List Nat) (hd : d ≠ 0) :
    16 ^ ds.length ≤ nibbles_to_nat (d :: ds) := by
  rw [nibbles_to_nat_cons]
  have h1 : 1 * 16 ^ ds.length ≤ d * 16 ^ ds.length :=
    Nat.mul_le_mul_right _ (by omega)
  omega

theorem bit_length_mul_pow (A k : Nat) (hA : A ≠ 0) :
    bit_length (A * 2 ^ k) = bit_length A + k := by
  have hApos : 0 < A := Nat.pos_of_ne_zero hA
  have hs_pos : 1 ≤ bit_length A := by
    rw [show (1 : Nat) = 0 + 1 from rfl, Nat.add_one_le_iff, lt_bit_length_iff]
    simpa using hApos
  apply Nat.le_antisymm
  · rw [bit_length_le_iff, pow_add]
    exact (Nat.mul_lt_mul_right (Nat.two_pow_pos k)).mpr
      ((bit_length_le_iff A (bit_length A)).mp le_rfl)
  · rw [show bit_length A + k = (bit_length A + k - 1) + 1 by omega,
      Nat.add_one_le_iff, lt_bit_length_iff,
      show bit_length A + k - 1 = (bit_length A - 1) + k by omega, pow_add]
    apply Nat.mul_le_mul_right
    rw [← lt_bit_length_iff]
    omega

theorem bits_value_normal (fmt : FPFormat) (sb be mf : Nat)
    (hsb : sb ≤ 1) (hbe_pos : 1 ≤ be) (hbe_lt : be < 2 ^ fmt.exponent_bits)
    (hmf : mf < 2 ^ fmt.mantissa_bits) :
    bits_value fmt (sb * 2 ^ (fmt.exponent_bits + fmt.mantissa_bits) +
      be * 2 ^ fmt.mantissa_bits + mf) =
      (if sb = 1 then (-1 : ℚ) else 1) * 2 ^ ((be : Int) - fmt.bias) *
        (1 + (mf : ℚ) / 2 ^ fmt.mantissa_bits) := by
  set E := fmt.exponent_bits
  set M := fmt.mantissa_bits
  set bits := sb * 2 ^ (E + M) + be * 2 ^ M + mf with hbits
  have hMpos : 0 < 2 ^ M := Nat.two_pow_pos M
  have hEMpos : 0 < 2 ^ (E + M) := Nat.two_pow_pos (E + M)
  have hsplit : bits = 2 ^ M * (sb * 2 ^ E + be) + mf := by
    rw [hbits, pow_add]
    ring
  have h1 : bits % 2 ^ M = mf := by
    rw [hsplit, Nat.mul_add_mod, Nat.mod_eq_of_lt hmf]
  have h2 : bits / 2 ^ M = sb * 2 ^ E + be := by
    rw [hsplit, Nat.mul_add_div hMpos, Nat.div_eq_of_lt hmf]
    omega
  have h3 : (bits / 2 ^ M) % 2 ^ E = be := by
    rw [h2, mul_comm sb (2 ^ E), Nat.mul_add_mod, Nat.mod_eq_of_lt hbe_lt]
  have hrem : be * 2 ^ M + mf < 2 ^ (E + M) := by
    have hsucc : (be + 1) * 2 ^ M = be * 2 ^ M + 2 ^ M := Nat.succ_mul be (2 ^ M)
    have hb1 : (be + 1) * 2 ^ M ≤ 2 ^ E * 2 ^ M := Nat.mul_le_mul_right _ (by omega)
    have hpow : 2 ^ (E + M) = 2 ^ E * 2 ^ M := pow_add 2 E M
    omega
  have h4 : bits / 2 ^ (E + M) % 2 = sb := by
    have hb : bits = 2 ^ (E + M) * sb + (be * 2 ^ M + mf) := by
      rw [hbits]
      ring
    rw [hb, Nat.mul_add_div hEMpos, Nat.div_eq_of_lt hrem, Nat.add_zero,
      Nat.mod_eq_of_lt (by omega)]
  simp only [bits_value]
  rw [h1, h3, h4]
  rw [if_neg (by omega : ¬ be = 0)]

/-! Symbolic evaluation lemmas for the parser stages, used to run the parser
on inputs of a known shape (for the `MissingExponent` claim). -/

theorem parse_sign_48 (p : Nat) (T : List Nat) :
    parse_sign ⟨p, 48 :: T⟩ = (true, ⟨p, 48 :: T⟩) := rfl

theorem parse_sign_43 (p : Nat) (T : List Nat) :
    parse_sign ⟨p, 43 :: T⟩ = (true, ⟨p + 1, T⟩) := rfl

theorem parse_sign_45 (p : Nat) (T : List Nat) :
    parse_sign ⟨p, 45 :: T⟩ = (false, ⟨p + 1, T⟩) := rfl

theorem parse_hex_marker_48 (p x : Nat) (T : List Nat) (hx : x = 120 ∨ x = 88) :
    parse_hex_marker ⟨p, 48 :: x :: T⟩ = some ⟨p + 2, T⟩ := by
  rcases hx with rfl | rfl <;> rfl

theorem consume_hex_digits_run (p : Nat) (run rest : List Nat)
    (hrun : ∀ x ∈ run, is_hex_digit x = true)
    (hrest : ∀ r t, rest = r :: t → is_hex_digit r = false) :
    consume_hex_digits ⟨p, run ++ rest⟩ = (run, ⟨p + run.length, rest⟩) := by
  obtain ⟨ht, hd⟩ := takeWhile_append_run is_hex_digit run rest hrun hrest
  simp [consume_hex_digits, ht, hd]

theorem parse_fraction_dot (p : Nat) (fpart rest : List Nat)
    (hf : ∀ x ∈ fpart, is_hex_digit x = true)
    (hrest : ∀ r t, rest = r :: t → is_hex_digit r = false) :
    parse_fraction ⟨p, 46 :: (fpart ++ rest)⟩ = (fpart, ⟨p + 1 + fpart.length, rest⟩) := by
  have h1 : parse_fraction ⟨p, 46 :: (fpart ++ rest)⟩ =
      consume_hex_digits ⟨p + 1, fpart ++ rest⟩ := rfl
  rw [h1, consume_hex_digits_run (p + 1) fpart rest hf hrest]

theorem parse_fraction_marker (p pm : Nat) (E : List Nat) (hpm : pm = 80 ∨ pm = 112) :
    parse_fraction ⟨p, pm :: E⟩ = ([], ⟨p, pm :: E⟩) := by
  rcases hpm with rfl | rfl <;> rfl

theorem parse_exponent_no_digits (orig : Slice) (p pm : Nat) (esign rest : List Nat)
    (hpm : pm = 80 ∨ pm = 112)
    (hesign : esign = [] ∨ esign = [43] ∨ esign = [45])
    (hrest : ∀ r t, rest = r :: t →
      is_dec_digit r = false ∧ (esign = [] → r ≠ 43 ∧ r ≠ 45)) :
    parse_exponent orig ⟨p, pm :: (esign ++ rest)⟩ =
      some (.error ⟨.MissingExponent, get_cursed_index orig ⟨p + 1, esign ++ rest⟩⟩) := by
  have hso : (match (esign ++ rest : List Nat) with
      | c :: _ => if c = 43 ∨ c = 45 then 1 else 0
      | [] => 0) = esign.length := by
    rcases hesign with rfl | rfl | rfl
    · cases rest with
      | nil => rfl
      | cons r t =>
        have hr := (hrest r t rfl).2 rfl
        simp only [List.nil_append, List.length_nil]
        rw [if_neg]
        intro hor
        rcases hor with h | h
        · exact hr.1 h
        · exact hr.2 h
    · rfl
    · rfl
  have hoff : (position (fun b => ! is_dec_digit b) rest).getD rest.length = 0 := by
    cases rest with
    | nil => rfl
    | cons r t =>
      have hd := (hrest r t rfl).1
      simp [position, hd]
  rcases hpm with rfl | rfl <;>
  · unfold parse_exponent
    dsimp only
    rw [if_pos (by norm_num)]
    simp only [slice_drop, List.drop_succ_cons, List.drop_zero]
    rw [hso, List.drop_left]
    rw [hoff]
    rw [if_pos rfl]

theorem from_bytes_core_missing_exponent
    (orig : Slice) (pos : Bool) (p x pm : Nat)
    (ipart fpart esign rest : List Nat) (dot : Bool)
    (hx : x = 120 ∨ x = 88)
    (hi : ∀ b ∈ ipart, is_hex_digit b = true)
    (hf : ∀ b ∈ fpart, is_hex_digit b = true)
    (hdotf : dot = false → fpart = [])
    (hne : ipart ≠ [] ∨ fpart ≠ [])
    (hpm : pm = 80 ∨ pm = 112)
    (hesign : esign = [] ∨ esign = [43] ∨ esign = [45])
    (hrest : ∀ r t, rest = r :: t →
      is_dec_digit r = false ∧ (esign = [] → r ≠ 43 ∧ r ≠ 45)) :
    from_bytes_core orig pos
      ⟨p, 48 :: x :: (ipart ++ ((if dot then 46 :: fpart else []) ++ pm :: (esign ++ rest)))⟩ =
      some (.error ⟨.MissingExponent,
        (p + 2 + ipart.length + (if dot then 1 + fpart.length else 0) + 1) - orig.ptr⟩) := by
  have hpm_not_hex : ∀ r t, (pm :: (esign ++ rest) : List Nat) = r :: t →
      is_hex_digit r = false := by
    intro r t h
    injection h with h1 _
    subst h1
    rcases hpm with rfl | rfl <;> rfl
  have hnothex : ∀ r t,
      ((if dot then 46 :: fpart else []) ++ pm :: (esign ++ rest) : List Nat) = r :: t →
      is_hex_digit r = false := by
    cases dot with
    | false =>
      simp only [Bool.false_eq_true, if_false, List.nil_append]
      exact hpm_not_hex
    | true =>
      simp only [if_true, List.cons_append]
      intro r t h
      injection h with h1 _
      subst h1
      rfl
  simp only [from_bytes_core]
  rw [parse_hex_marker_48 p x _ hx]
  dsimp only
  rw [consume_hex_digits_run (p + 2) ipart _ hi hnothex]
  dsimp only
  cases dot with
  | false =>
    have hfnil := hdotf rfl
    subst hfnil
    have hine : ipart ≠ [] := hne.resolve_right (fun h => h rfl)
    simp only [Bool.false_eq_true, if_false, List.nil_append]
    rw [parse_fraction_marker _ pm _ hpm]
    dsimp only
    rw [if_neg (fun h => hine h.2)]
    rw [parse_exponent_no_digits orig _ pm esign rest hpm hesign hrest]
    dsimp only
    simp only [get_cursed_index, Option.some.injEq, Except.error.injEq,
      ParseError.mk.injEq, true_and]
  | true =>
    simp only [if_true, List.cons_append]
    rw [parse_fraction_dot _ fpart _ hf hpm_not_hex]
    dsimp only
    rw [if_neg (fun h => hne.elim (fun h2 => h2 h.2) (fun h2 => h2 h.1))]
    rw [parse_exponent_no_digits orig _ pm esign rest hpm hesign hrest]
    dsimp only
    simp only [get_cursed_index, Option.some.injEq, Except.error.injEq,
      ParseError.mk.injEq, true_and]
    omega

/-! The claims. -/

/-- C1: whenever all significant digits of a well-formed literal fit within
the target format's mantissa width (4 bits per digit within the mantissa
and its implicit bit) and the final exponent lies within the format's
normalized range, `convert` returns `Precise` and the value of the
produced bit pattern equals the literal's exact mathematical value. -/
theorem c1_exact_conversion :
    ∀ (fmt : FPFormat) (lit : FloatLiteral),
      3 ≤ fmt.exponent_bits →
      (∀ d ∈ lit.digits, d < 16) →
      (∀ d ds, lit.digits = d :: ds → d ≠ 0) →
      4 * lit.digits.length ≤ fmt.mantissa_bits + 1 →
      (lit.digits = [] ∨
        (fmt.min_exponent ≤ final_exponent fmt lit ∧
          final_exponent fmt lit ≤ fmt.max_exponent)) →
      ∃ b, FloatLiteral.convert fmt lit = .Precise b ∧
        bits_value fmt b = lit_value lit := by
  intro fmt lit hE hd16 hhead hfit hrange
  cases hdig : lit.digits with
  | nil =>
    refine ⟨zero_bits fmt lit, ?_, ?_⟩
    · simp [FloatLiteral.convert, from_literal, hdig]
    · rw [zero_bits_value]
      simp [lit_value, hdig, nibbles_to_nat]
  | cons d ds =>
    set E := fmt.exponent_bits with hEdef
    set M := fmt.mantissa_bits with hMdef
    have hTdef : fmt.total_bits = 1 + E + M := rfl
    have hlen1 : 1 ≤ lit.digits.length := by rw [hdig]; simp
    have h4T : 4 * lit.digits.length ≤ fmt.total_bits := by omega
    have hcap : lit.digits.length ≤ fmt.nibble_cap := by
      unfold FPFormat.nibble_cap
      rw [Nat.le_div_iff_mul_le (by norm_num : 0 < 4)]
      omega
    have h1 : packed_digits fmt lit = lit.digits := by
      unfold packed_digits
      exact List.take_of_length_le hcap
    set A := nibbles_to_nat lit.digits with hAdef
    have h16l : (16 : ℕ) ^ lit.digits.length = 2 ^ (4 * lit.digits.length) := by
      rw [show (16 : ℕ) = 2 ^ 4 from rfl, ← pow_mul]
    have hA_lt : A < 2 ^ (4 * lit.digits.length) := by
      have h := nibbles_to_nat_lt lit.digits hd16
      rwa [h16l] at h
    have hA_ge : 2 ^ (4 * lit.digits.length - 4) ≤ A := by
      have hg := nibbles_to_nat_ge d ds (hhead d ds hdig)
      rw [← hdig] at hg
      have hds : ds.length = lit.digits.length - 1 := by rw [hdig]; simp
      have h16e : (16 : ℕ) ^ ds.length = 2 ^ (4 * lit.digits.length - 4) := by
        rw [show (16 : ℕ) = 2 ^ 4 from rfl, ← pow_mul]
        congr 1
        omega
      rwa [h16e] at hg
    have hA_ne : A ≠ 0 := by
      have := Nat.two_pow_pos (4 * lit.digits.length - 4)
      omega
    have hs_pos : 1 ≤ bit_length A := by
      rw [show (1 : ℕ) = 0 + 1 from rfl, Nat.add_one_le_iff, lt_bit_length_iff]
      omega
    obtain ⟨s', hs'⟩ : ∃ s', bit_length A = s' + 1 := ⟨bit_length A - 1, by omega⟩
    have hs_le : bit_length A ≤ 4 * lit.digits.length :=
      (bit_length_le_iff A _).mpr hA_lt
    have hs_ge : 4 * lit.digits.length - 4 < bit_length A :=
      (lt_bit_length_iff A _).mpr hA_ge
    have hA_ub : A < 2 ^ (s' + 1) := (bit_length_le_iff A _).mp (Nat.le_of_eq hs')
    have hA_lb : 2 ^ s' ≤ A := (lt_bit_length_iff A s').mp (by omega)
    have hacc : accumulator fmt lit =
        A * 2 ^ (fmt.total_bits - 4 * lit.digits.length) := by
      unfold accumulator
      rw [h1]
    have hbl_acc : bit_length (accumulator fmt lit) =
        (s' + 1) + (fmt.total_bits - 4 * lit.digits.length) := by
      rw [hacc, bit_length_mul_pow A _ hA_ne, hs']
    have hlz : leading_zeros fmt lit = 4 * lit.digits.length - (s' + 1) := by
      unfold leading_zeros
      rw [hbl_acc]
      omega
    have hsM : s' ≤ M := by omega
    -- the mantissa field is the fraction bits of A, exactly
    set r := A - 2 ^ s' with hrdef
    have hAr : A = 2 ^ s' + r := by omega
    have hr_lt : r < 2 ^ s' := by
      have h2 : 2 ^ (s' + 1) = 2 * 2 ^ s' := by rw [pow_succ]; ring
      omega
    have hmf : mantissa_field fmt lit = r * 2 ^ (M - s') := by
      unfold mantissa_field
      rw [hacc, hlz]
      have he : (fmt.total_bits - 4 * lit.digits.length) +
          ((4 * lit.digits.length - (s' + 1)) + 1) = fmt.total_bits - s' := by
        omega
      rw [mul_assoc, ← pow_add, he, hAr, add_mul, ← pow_add]
      have he2 : s' + (fmt.total_bits - s') = fmt.total_bits := by omega
      rw [he2, Nat.add_mod_left]
      have hx_lt : r * 2 ^ (fmt.total_bits - s') < 2 ^ fmt.total_bits := by
        calc r * 2 ^ (fmt.total_bits - s')
            < 2 ^ s' * 2 ^ (fmt.total_bits - s') :=
              (Nat.mul_lt_mul_right (Nat.two_pow_pos _)).mpr hr_lt
          _ = 2 ^ fmt.total_bits := by rw [← pow_add, he2]
      rw [Nat.mod_eq_of_lt hx_lt]
      have he3 : fmt.total_bits - s' = (M - s') + (fmt.total_bits - M) := by omega
      rw [he3, pow_add, ← mul_assoc, Nat.mul_div_cancel _ (Nat.two_pow_pos _)]
    have hmf_lt : mantissa_field fmt lit < 2 ^ M := by
      rw [hmf]
      calc r * 2 ^ (M - s') < 2 ^ s' * 2 ^ (M - s') :=
            (Nat.mul_lt_mul_right (Nat.two_pow_pos _)).mpr hr_lt
        _ = 2 ^ M := by
            rw [← pow_add]
            congr 1
            omega
    -- the biased exponent field
    rcases hrange with hnil | ⟨hlo, hhi⟩
    · rw [hdig] at hnil
      cases hnil
    set F := final_exponent fmt lit with hFdef
    have hbias : fmt.bias = 2 ^ (E - 1) - 1 := rfl
    have h2E : (2 : ℤ) ^ E = 2 ^ (E - 1) * 2 := by
      rw [← pow_succ]
      congr 1
      omega
    have hlo' : 1 - fmt.bias ≤ F := hlo
    have hhi' : F ≤ fmt.bias := hhi
    set be := (F + fmt.bias).toNat with hbedef
    have hbe_cast : (be : ℤ) = F + fmt.bias := Int.toNat_of_nonneg (by omega)
    have hbe_pos : 1 ≤ be := by omega
    have hbe_lt : be < 2 ^ E := by
      have h3 : (be : ℤ) < ((2 ^ E : ℕ) : ℤ) := by push_cast; omega
      exact_mod_cast h3
    have hsb : lit.sign_bit ≤ 1 := by
      cases h : lit.is_positive <;> simp [FloatLiteral.sign_bit, h]
    -- the conversion takes the precise assembly branch
    have hne : lit.digits ≠ [] := by rw [hdig]; simp
    have hb1 : ¬ (F < fmt.min_exponent) := not_lt.mpr hlo
    have hb2 : ¬ (fmt.max_exponent < F) := not_lt.mpr hhi
    have hb3 : ¬ (fmt.nibble_cap < lit.digits.length) := not_lt.mpr hcap
    have hconv : FloatLiteral.convert fmt lit = .Precise
        (zero_bits fmt lit + be * 2 ^ M + mantissa_field fmt lit) := by
      simp only [FloatLiteral.convert, from_literal, hne, ← hFdef, hb1, hb2, hb3,
        if_false, ← hbedef, ← hMdef]
    refine ⟨_, hconv, ?_⟩
    have hz : zero_bits fmt lit = lit.sign_bit * 2 ^ (E + M) := rfl
    rw [hz, hmf, bits_value_normal fmt lit.sign_bit be _ hsb hbe_pos hbe_lt
      (hmf ▸ hmf_lt)]
    -- now pure rational arithmetic
    have hsgn : (if lit.sign_bit = 1 then (-1 : ℚ) else 1) =
        (if lit.is_positive then (1 : ℚ) else -1) := by
      cases h : lit.is_positive <;> simp [FloatLiteral.sign_bit, h]
    have hbeF : (be : ℤ) - fmt.bias = F := by omega
    have hArQ : (A : ℚ) = 2 ^ s' + (r : ℚ) := by exact_mod_cast hAr
    have key : (1 : ℚ) + ((r * 2 ^ (M - s') : ℕ) : ℚ) / 2 ^ M = (A : ℚ) / 2 ^ s' := by
      have h2s : ((2 : ℚ) ^ s') ≠ 0 := by positivity
      have h2M : ((2 : ℚ) ^ M) ≠ 0 := by positivity
      have hMsplit : (2 : ℚ) ^ M = 2 ^ (M - s') * 2 ^ s' := by
        rw [← pow_add]
        congr 1
        omega
      push_cast
      have hstep : (1 : ℚ) + (r : ℚ) * 2 ^ (M - s') / 2 ^ M =
          ((2 : ℚ) ^ M + (r : ℚ) * 2 ^ (M - s')) / 2 ^ M := by
        field_simp
      rw [hstep, div_eq_div_iff h2M h2s, hArQ, hMsplit]
      ring
    rw [hbeF, hsgn, key]
    have hzp : (2 : ℚ) ^ (F : ℤ) * ((A : ℚ) / 2 ^ s') =
        (A : ℚ) * 2 ^ (F - (s' : ℤ)) := by
      calc (2 : ℚ) ^ (F : ℤ) * ((A : ℚ) / 2 ^ s')
          = (A : ℚ) * ((2 : ℚ) ^ (F : ℤ) / (2 : ℚ) ^ (s' : ℕ)) := by ring
        _ = (A : ℚ) * ((2 : ℚ) ^ (F : ℤ) / (2 : ℚ) ^ ((s' : ℕ) : ℤ)) := by
            rw [zpow_natCast]
        _ = (A : ℚ) * 2 ^ (F - (s' : ℤ)) := by
            rw [← zpow_sub₀ (by norm_num : (2 : ℚ) ≠ 0)]
    have hF_eq : F = 4 * lit.decimal_offset -
        (((4 * lit.digits.length - (s' + 1)) : ℕ) : ℤ) - 1 + lit.exponent := by
      rw [hFdef]
      unfold final_exponent exponent_offset
      rw [hlz]
      ring
    have hcast : (((4 * lit.digits.length - (s' + 1)) : ℕ) : ℤ) =
        4 * (lit.digits.length : ℤ) - (s' + 1) := by
      have hle : s' + 1 ≤ 4 * lit.digits.length := by omega
      push_cast [hle]
      ring
    have hFs : F - (s' : ℤ) =
        4 * (lit.decimal_offset - (lit.digits.length : ℤ)) + lit.exponent := by
      rw [hF_eq, hcast]
      ring
    rw [mul_assoc, hzp, hFs]
    unfold lit_value
    ring

/-- C1 witness: `c1_exact_conversion` applied to the single-precision
format and the literal parsed from `0x3.4`, whose exact value is 13/4
(3.25). -/
theorem c1_exact_conversion_witness :
    from_bytes [48, 120, 51, 46, 52] = some (.ok ⟨true, [3, 4], 1, 0⟩) ∧
    (∃ b, FloatLiteral.convert f32_format ⟨true, [3, 4], 1, 0⟩ = .Precise b ∧
      bits_value f32_format b = lit_value ⟨true, [3, 4], 1, 0⟩) ∧
    lit_value ⟨true, [3, 4], 1, 0⟩ = 13 / 4 := by
  refine ⟨by decide, ?_, ?_⟩
  swap
  · simp only [lit_value, nibbles_to_nat]
    norm_num
  exact c1_exact_conversion f32_format ⟨true, [3, 4], 1, 0⟩ (by decide) (by decide)
    (fun d ds h => by cases h; decide) (by decide)
    (Or.inr ⟨by decide, by decide⟩)

/-- C3: each of the inputs `0x0`, `0x0.`, `0x.0`, `0x0.0` and `0x0000.0000`
parses to a `FloatLiteral` with empty digits and `decimal_offset` 0, and
converting any empty-digits literal in any format returns `Precise` zero
carrying the literal's sign bit (a bit pattern whose value is 0). -/
theorem c3_zero_canonicalization :
    (from_bytes [48, 120, 48] = some (.ok ⟨true, [], 0, 0⟩)
      ∧ from_bytes [48, 120, 48, 46] = some (.ok ⟨true, [], 0, 0⟩)
      ∧ from_bytes [48, 120, 46, 48] = some (.ok ⟨true, [], 0, 0⟩)
      ∧ from_bytes [48, 120, 48, 46, 48] = some (.ok ⟨true, [], 0, 0⟩)
      ∧ from_bytes [48, 120, 48, 48, 48, 48, 46, 48, 48, 48, 48] =
          some (.ok ⟨true, [], 0, 0⟩))
  ∧ ∀ (fmt : FPFormat) (lit : FloatLiteral), lit.digits = [] →
      FloatLiteral.convert fmt lit = .Precise (zero_bits fmt lit)
      ∧ bits_value fmt (zero_bits fmt lit) = 0 := by
  refine ⟨⟨by decide, by decide, by decide, by decide, by decide⟩, ?_⟩
  intro fmt lit h
  exact ⟨by simp [FloatLiteral.convert, from_literal, h], zero_bits_value fmt lit⟩

/-- C3 witness: the general clause of `c3_zero_canonicalization` applied to
the single-precision format and a concrete negative empty-digits literal. -/
theorem c3_zero_canonicalization_witness :
    FloatLiteral.convert f32_format ⟨false, [], 0, 0⟩ =
      .Precise (zero_bits f32_format ⟨false, [], 0, 0⟩)
    ∧ bits_value f32_format (zero_bits f32_format ⟨false, [], 0, 0⟩) = 0 :=
  c3_zero_canonicalization.2 f32_format ⟨false, [], 0, 0⟩ rfl

/-- C4: whenever the final exponent exceeds the format's maximum exponent
(for a format with at least 2 exponent bits), `convert` returns `Imprecise`
infinity carrying the literal's sign; in particular `0x1p1000` parses to
`⟨true, [1], 1, 1000⟩` and converts (single precision) to `Imprecise` of
the positive-infinity bit pattern 0x7F800000, and `-0x1p1000` to
`Imprecise` of the negative-infinity bit pattern 0xFF800000. -/
theorem c4_overflow_infinity :
    (∀ (fmt : FPFormat) (lit : FloatLiteral), 2 ≤ fmt.exponent_bits →
      lit.digits ≠ [] → fmt.max_exponent < final_exponent fmt lit →
      FloatLiteral.convert fmt lit = .Imprecise (inf_bits fmt lit))
  ∧ from_bytes [48, 120, 49, 112, 49, 48, 48, 48] = some (.ok ⟨true, [1], 1, 1000⟩)
  ∧ FloatLiteral.convert f32_format ⟨true, [1], 1, 1000⟩ =
      .Imprecise (inf_bits f32_format ⟨true, [1], 1, 1000⟩)
  ∧ inf_bits f32_format ⟨true, [1], 1, 1000⟩ = 2139095040
  ∧ from_bytes [45, 48, 120, 49, 112, 49, 48, 48, 48] = some (.ok ⟨false, [1], 1, 1000⟩)
  ∧ FloatLiteral.convert f32_format ⟨false, [1], 1, 1000⟩ =
      .Imprecise (inf_bits f32_format ⟨false, [1], 1, 1000⟩)
  ∧ inf_bits f32_format ⟨false, [1], 1, 1000⟩ = 4286578688 :=
  ⟨convert_overflow, by decide, by decide, by decide, by decide, by decide, by decide⟩

/-- C4 witness: the general clause of `c4_overflow_infinity` applied to the
single-precision format and the literal parsed from `0x1p1000`. -/
theorem c4_overflow_infinity_witness :
    FloatLiteral.convert f32_format ⟨true, [1], 1, 1000⟩ =
      .Imprecise (inf_bits f32_format ⟨true, [1], 1, 1000⟩) :=
  c4_overflow_infinity.1 f32_format ⟨true, [1], 1, 1000⟩ (by decide) (by decide)
    (by decide)

/-- C5: whenever the final exponent is below the format's minimum
normalized exponent, `convert` returns `Imprecise` zero carrying the
literal's sign bit (no subnormal results); in particular `0x1p-1000`
parses to `⟨true, [1], 1, -1000⟩` and converts (single precision) to
`Imprecise 0` (positive zero), and `-0x1p-1000` to `Imprecise` of the
negative-zero bit pattern 0x80000000. -/
theorem c5_underflow_signed_zero :
    (∀ (fmt : FPFormat) (lit : FloatLiteral), lit.digits ≠ [] →
      final_exponent fmt lit < fmt.min_exponent →
      FloatLiteral.convert fmt lit = .Imprecise (zero_bits fmt lit))
  ∧ from_bytes [48, 120, 49, 112, 45, 49, 48, 48, 48] = some (.ok ⟨true, [1], 1, -1000⟩)
  ∧ FloatLiteral.convert f32_format ⟨true, [1], 1, -1000⟩ =
      .Imprecise (zero_bits f32_format ⟨true, [1], 1, -1000⟩)
  ∧ zero_bits f32_format ⟨true, [1], 1, -1000⟩ = 0
  ∧ from_bytes [45, 48, 120, 49, 112, 45, 49, 48, 48, 48] =
      some (.ok ⟨false, [1], 1, -1000⟩)
  ∧ FloatLiteral.convert f32_format ⟨false, [1], 1, -1000⟩ =
      .Imprecise (zero_bits f32_format ⟨false, [1], 1, -1000⟩)
  ∧ zero_bits f32_format ⟨false, [1], 1, -1000⟩ = 2147483648 :=
  ⟨convert_underflow, by decide, by decide, by decide, by decide, by decide, by decide⟩

/-- C5 witness: the general clause of `c5_underflow_signed_zero` applied to
the single-precision format and the literal parsed from `-0x1p-1000`. -/
theorem c5_underflow_signed_zero_witness :
    FloatLiteral.convert f32_format ⟨false, [1], 1, -1000⟩ =
      .Imprecise (zero_bits f32_format ⟨false, [1], 1, -1000⟩) :=
  c5_underflow_signed_zero.1 f32_format ⟨false, [1], 1, -1000⟩ (by decide) (by decide)

/-- C6: for every input made of an optional sign, the `0x`/`0X` prefix, a
nonempty run of hex digits (with optional point and fractional run), then a
`p`/`P` exponent marker followed by an optional sign and zero decimal digit
bytes, `from_bytes` fails with `MissingExponent` at the position
immediately after the marker (the marker/sign position where the exponent
digits were expected); in particular `0x1p` fails at index 4. -/
theorem c6_missing_exponent :
    (∀ (sgn : List Nat) (x pm : Nat) (ipart fpart esign rest : List Nat) (dot : Bool),
      sgn = [] ∨ sgn = [43] ∨ sgn = [45] →
      x = 120 ∨ x = 88 →
      (∀ b ∈ ipart, is_hex_digit b = true) →
      (∀ b ∈ fpart, is_hex_digit b = true) →
      (dot = false → fpart = []) →
      ipart ≠ [] ∨ fpart ≠ [] →
      pm = 80 ∨ pm = 112 →
      esign = [] ∨ esign = [43] ∨ esign = [45] →
      (∀ r t, rest = r :: t →
        is_dec_digit r = false ∧ (esign = [] → r ≠ 43 ∧ r ≠ 45)) →
      from_bytes (sgn ++ 48 :: x ::
          (ipart ++ ((if dot then 46 :: fpart else []) ++ pm :: (esign ++ rest)))) =
        some (.error ⟨.MissingExponent,
          sgn.length + 2 + ipart.length + (if dot then 1 + fpart.length else 0) + 1⟩))
  ∧ from_bytes [48, 120, 49, 112] = some (.error ⟨.MissingExponent, 4⟩) := by
  constructor
  · intro sgn x pm ipart fpart esign rest dot hsgn hx hi hf hdotf hne hpm hesign hrest
    rcases hsgn with rfl | rfl | rfl
    · simp only [from_bytes, from_bytes_at, List.nil_append]
      rw [parse_sign_48]
      dsimp only
      rw [from_bytes_core_missing_exponent _ _ 0 x pm ipart fpart esign rest dot
        hx hi hf hdotf hne hpm hesign hrest]
      simp only [Option.some.injEq, Except.error.injEq, ParseError.mk.injEq,
        true_and, List.length_nil]
      omega
    · simp only [from_bytes, from_bytes_at, List.cons_append, List.nil_append]
      rw [parse_sign_43]
      dsimp only
      rw [from_bytes_core_missing_exponent _ _ (0 + 1) x pm ipart fpart esign rest dot
        hx hi hf hdotf hne hpm hesign hrest]
      simp only [Option.some.injEq, Except.error.injEq, ParseError.mk.injEq,
        true_and, List.length_cons, List.length_nil]
      omega
    · simp only [from_bytes, from_bytes_at, List.cons_append, List.nil_append]
      rw [parse_sign_45]
      dsimp only
      rw [from_bytes_core_missing_exponent _ _ (0 + 1) x pm ipart fpart esign rest dot
        hx hi hf hdotf hne hpm hesign hrest]
      simp only [Option.some.injEq, Except.error.injEq, ParseError.mk.injEq,
        true_and, List.length_cons, List.length_nil]
      omega
  · decide

/-- C6 witness: the general clause of `c6_missing_exponent` applied to the
concrete input `-0x1p-` (sign, one integer digit, marker, exponent sign,
no exponent digits), failing at index 5, immediately after the marker. -/
theorem c6_missing_exponent_witness :
    from_bytes [45, 48, 120, 49, 112, 45] =
      some (.error ⟨.MissingExponent, 5⟩) := by
  have h := c6_missing_exponent.1 [45] 120 112 [49] [] [45] [] false
    (Or.inr (Or.inr rfl)) (Or.inl rfl) (by decide) (by decide) (fun _ => rfl)
    (Or.inl (by decide)) (Or.inr rfl) (Or.inr (Or.inr rfl)) (fun r t hc => by cases hc)
  exact h

/-- C7: parsing is total and panic-free: for every input byte list (and
every allocation address of the buffer), `from_bytes_at` returns a value —
an `Except.ok` literal or a typed `ParseError` — and never reaches a
modelled panic (`none`): the UTF-8 `expect` on the exponent text and the
`unwrap`s during digit trimming and nibble conversion are unreachable. -/
theorem c7_total_no_panic :
    (∀ (base : Nat) (data : List Nat), ∃ r : Except ParseError FloatLiteral,
      from_bytes_at base data = some r)
  ∧ ∀ data : List Nat, ∃ r : Except ParseError FloatLiteral,
      from_bytes data = some r := by
  have key : ∀ (base : Nat) (data : List Nat), ∃ r : Except ParseError FloatLiteral,
      from_bytes_at base data = some r := by
    intro base data
    have hs := from_bytes_at_isSome base data
    cases h : from_bytes_at base data with
    | none => rw [h] at hs; cases hs
    | some r => exact ⟨r, rfl⟩
  exact ⟨key, fun data => key 0 data⟩

/-- C8: parsing is deterministic and independent of where the input buffer
is allocated: `from_bytes_at` gives structurally equal results (the same
literal, or the same error kind at the same index) for the same bytes at
any two base addresses, even though indices are computed by pointer
subtraction; `from_bytes` is the address-0 run. -/
theorem c8_deterministic :
    (∀ (b1 b2 : Nat) (data : List Nat),
      from_bytes_at b1 data = from_bytes_at b2 data)
  ∧ ∀ data : List Nat, from_bytes data = from_bytes_at 0 data := by
  have key : ∀ (b : Nat) (data : List Nat),
      from_bytes_at b data = from_bytes_at 0 data := by
    intro b data
    have h := from_bytes_at_shift b 0 data
    rwa [Nat.add_zero] at h
  exact ⟨fun b1 b2 data => (key b1 data).trans (key b2 data).symm,
    fun _ => rfl⟩

/-- C9: the empty input fails with `MissingPrefix` at index 0; `0x` fails
with `MissingDigits` at index 2 (immediately after the prefix) and `0x.`
at index 3 (immediately after the point); `0xbaddata` fails with
`MissingEnd` at index 7, the first unconsumed byte (the `t`). -/
theorem c9_error_indices :
    from_bytes [] = some (.error ⟨.MissingPrefix, 0⟩)
  ∧ from_bytes [48, 120] = some (.error ⟨.MissingDigits, 2⟩)
  ∧ from_bytes [48, 120, 46] = some (.error ⟨.MissingDigits, 3⟩)
  ∧ from_bytes [48, 120, 98, 97, 100, 100, 97, 116, 97] =
      some (.error ⟨.MissingEnd, 7⟩) :=
  ⟨by decide, by decide, by decide, by decide⟩

/-- C10: the `FromStr` implementation is exactly `from_bytes` applied to
the string's UTF-8 bytes, and the `From<FloatLiteral>` conversions to
`f32` and `f64` are exactly `convert().inner()`, the `Precise`/`Imprecise`
tag discarded. -/
theorem c10_trait_wrappers :
    (∀ s : String, from_str s = from_bytes (s.toUTF8.toList.map (fun b => b.toNat)))
  ∧ (∀ lit : FloatLiteral, f32_of_literal lit = (FloatLiteral.convert f32_format lit).inner)
  ∧ (∀ lit : FloatLiteral, f64_of_literal lit = (FloatLiteral.convert f64_format lit).inner) :=
  ⟨fun _ => rfl, fun _ => rfl, fun _ => rfl⟩

end Hexponent
